import Mathlib

set_option maxHeartbeats 1000000

/-!
Shallow embedding of the Kandog/bootbuddy repository
(`src/process_template.py` and `src/generate_voucher.py`).

Python strings are modelled as `List Char`.  The regular expression
`v_[a-zA-Z0-9_]+` (used through `re.findall`), Python `str.replace`,
Python substring membership (`key in text`), and the python-docx
paragraph / run / table / header / footer / text-box tree are all
modelled explicitly below, following the source code.
-/

/-- Characters matched by the regex character class `[a-zA-Z0-9_]`
from `PLACEHOLDER_REGEX = re.compile(r'v_[a-zA-Z0-9_]+')`. -/
def isWordChar (c : Char) : Bool := c.isAlpha || c.isDigit || c = '_'

/-- Python substring membership `p in s` (`str.__contains__`). -/
def isSub (p s : List Char) : Prop := p <:+: s

instance : DecidablePred (fun q : List Char × List Char => isSub q.1 q.2) :=
  fun q => List.decidableInfix q.1 q.2

instance (p s : List Char) : Decidable (isSub p s) := List.decidableInfix p s

/-- Fuel-bounded body of `pyReplaceNE`; the fuel only makes the
recursion structural and is irrelevant once it is at least the length of
the string (`pyReplaceAux_congr`). -/
def pyReplaceAux (old new : List Char) : Nat → List Char → List Char
  | _, [] => []
  | 0, s => s
  | n + 1, c :: rest =>
    if old ≠ [] ∧ old <+: (c :: rest) then
      new ++ pyReplaceAux old new n ((c :: rest).drop old.length)
    else c :: pyReplaceAux old new n rest

/-- Python `s.replace(old, new)` for nonempty `old`: scan left to right,
replace each non-overlapping occurrence, continue after the inserted text. -/
def pyReplaceNE (old new s : List Char) : List Char := pyReplaceAux old new s.length s

/-- Python `s.replace(old, new)`: for `old = ""` Python inserts `new`
before every character and at the end (`"ab".replace("", "-") = "-a-b-"`). -/
def pyReplace (s old new : List Char) : List Char :=
  if old = [] then new ++ (s.map (fun c => c :: new)).flatten
  else pyReplaceNE old new s

/-- Fuel-bounded body of `findAll`; the fuel only makes the recursion
structural and is irrelevant once it is at least the length of the string
(`findAllAux_congr`).  At each position the scanner matches `v_` plus a
maximal nonempty word run, emits it and jumps past it; otherwise it
advances one character. -/
def findAllAux : Nat → List Char → List (List Char)
  | _, [] => []
  | 0, _ => []
  | n + 1, a :: s =>
    if a = 'v' then
      match s with
      | b :: c :: r =>
        if b = '_' ∧ isWordChar c then
          (a :: b :: c :: r.takeWhile isWordChar) :: findAllAux n (r.dropWhile isWordChar)
        else findAllAux n s
      | _ => findAllAux n s
    else findAllAux n s

/-- `re.findall(r'v_[a-zA-Z0-9_]+', s)`: scan left to right; at each
position try to match `v_` followed by a maximal nonempty word-character
run; on a match, emit it and continue after its end, else advance one
character. -/
def findAll (s : List Char) : List (List Char) := findAllAux s.length s

theorem pyReplaceAux_nil (old new : List Char) (n : Nat) :
    pyReplaceAux old new n [] = [] := by
  rcases n with _ | n <;> rfl

theorem pyReplaceAux_succ (old new : List Char) (n : Nat) (c : Char) (rest : List Char) :
    pyReplaceAux old new (n + 1) (c :: rest) =
      if old ≠ [] ∧ old <+: (c :: rest) then
        new ++ pyReplaceAux old new n ((c :: rest).drop old.length)
      else c :: pyReplaceAux old new n rest := rfl

theorem pyReplaceAux_congr {old new : List Char} :
    ∀ (n m : Nat) (s : List Char), s.length ≤ n → s.length ≤ m →
      pyReplaceAux old new n s = pyReplaceAux old new m s := by
  intro n
  induction n with
  | zero =>
    intro m s hn _
    rw [List.length_eq_zero.mp (Nat.le_zero.mp hn)]
    rw [pyReplaceAux_nil, pyReplaceAux_nil]
  | succ n ih =>
    intro m s hn hm
    rcases s with _ | ⟨c, rest⟩
    · rw [pyReplaceAux_nil, pyReplaceAux_nil]
    · rcases m with _ | m
      · simp at hm
      · rw [pyReplaceAux_succ, pyReplaceAux_succ]
        by_cases h : old ≠ [] ∧ old <+: (c :: rest)
        · rw [if_pos h, if_pos h]
          have hlold : 0 < old.length := List.length_pos.mpr h.1
          have hdl : ((c :: rest).drop old.length).length ≤ n := by
            simp only [List.length_drop, List.length_cons]
            simp only [List.length_cons] at hn
            omega
          have hdm : ((c :: rest).drop old.length).length ≤ m := by
            simp only [List.length_drop, List.length_cons]
            simp only [List.length_cons] at hm
            omega
          rw [ih m _ hdl hdm]
        · rw [if_neg h, if_neg h]
          simp only [List.length_cons] at hn hm
          rw [ih m rest (by omega) (by omega)]

theorem pyReplaceAux_eq_ne {old new : List Char} {n : Nat} {s : List Char}
    (hn : s.length ≤ n) : pyReplaceAux old new n s = pyReplaceNE old new s :=
  pyReplaceAux_congr n s.length s hn (Nat.le_refl _)

theorem findAllAux_nil (n : Nat) : findAllAux n [] = [] := by
  rcases n with _ | n <;> rfl

theorem findAllAux_succ_cons (n : Nat) (a : Char) (s : List Char) :
    findAllAux (n + 1) (a :: s) =
      if a = 'v' then
        (match s with
          | b :: c :: r =>
            if b = '_' ∧ isWordChar c then
              (a :: b :: c :: r.takeWhile isWordChar) :: findAllAux n (r.dropWhile isWordChar)
            else findAllAux n s
          | _ => findAllAux n s)
      else findAllAux n s := rfl

theorem findAllAux_start (n : Nat) (c : Char) (r : List Char) :
    findAllAux (n + 1) ('v' :: '_' :: c :: r) =
      if isWordChar c then
        ('v' :: '_' :: c :: r.takeWhile isWordChar) :: findAllAux n (r.dropWhile isWordChar)
      else findAllAux n ('_' :: c :: r) := by
  rw [findAllAux_succ_cons, if_pos rfl]
  by_cases hc : isWordChar c
  · rw [if_pos hc]
    exact if_pos ⟨rfl, hc⟩
  · rw [if_neg hc]
    exact if_neg (fun hx => hc hx.2)

theorem findAllAux_cons_ne {a : Char} (n : Nat) (s : List Char) (h : a ≠ 'v') :
    findAllAux (n + 1) (a :: s) = findAllAux n s := by
  rw [findAllAux_succ_cons, if_neg h]

theorem findAllAux_v_not_u {b : Char} (n : Nat) (s : List Char) (h : b ≠ '_') :
    findAllAux (n + 1) ('v' :: b :: s) = findAllAux n (b :: s) := by
  rw [findAllAux_succ_cons, if_pos rfl]
  rcases s with _ | ⟨c, r⟩
  · rfl
  · exact if_neg (fun hx => h hx.1)

theorem findAllAux_congr :
    ∀ (n m : Nat) (s : List Char), s.length ≤ n → s.length ≤ m →
      findAllAux n s = findAllAux m s := by
  intro n
  induction n with
  | zero =>
    intro m s hn _
    rw [List.length_eq_zero.mp (Nat.le_zero.mp hn)]
    rw [findAllAux_nil, findAllAux_nil]
  | succ n ih =>
    intro m s hn hm
    rcases s with _ | ⟨a, s2⟩
    · rw [findAllAux_nil, findAllAux_nil]
    · rcases m with _ | m
      · simp at hm
      · simp only [List.length_cons] at hn hm
        by_cases ha : a = 'v'
        · subst ha
          rcases s2 with _ | ⟨b, s3⟩
          · rw [findAllAux_succ_cons, findAllAux_succ_cons, if_pos rfl, if_pos rfl]
            show findAllAux n [] = findAllAux m []
            rw [findAllAux_nil, findAllAux_nil]
          · by_cases hb : b = '_'
            · subst hb
              rcases s3 with _ | ⟨c, r⟩
              · rw [findAllAux_succ_cons, findAllAux_succ_cons, if_pos rfl, if_pos rfl]
                simp only [List.length_cons, List.length_nil] at hn hm
                exact ih m ['_'] (by simp only [List.length_cons, List.length_nil]; omega)
                  (by simp only [List.length_cons, List.length_nil]; omega)
              · rw [findAllAux_start, findAllAux_start]
                simp only [List.length_cons] at hn hm
                by_cases hc : isWordChar c
                · rw [if_pos hc, if_pos hc]
                  have hd := (List.dropWhile_sublist (l := r) isWordChar).length_le
                  rw [ih m _ (by omega) (by omega)]
                · rw [if_neg hc, if_neg hc]
                  rw [ih m _ (by simp only [List.length_cons]; omega)
                    (by simp only [List.length_cons]; omega)]
            · rw [findAllAux_v_not_u n _ hb, findAllAux_v_not_u m _ hb]
              simp only [List.length_cons] at hn hm
              rw [ih m _ (by simp only [List.length_cons]; omega)
                (by simp only [List.length_cons]; omega)]
        · rw [findAllAux_cons_ne n _ ha, findAllAux_cons_ne m _ ha]
          rw [ih m _ (by omega) (by omega)]

theorem findAllAux_eq {n : Nat} {s : List Char} (hn : s.length ≤ n) :
    findAllAux n s = findAll s :=
  findAllAux_congr n s.length s hn (Nat.le_refl _)

/-- Maximal word-character runs of a string, in order. -/
def wordRuns : List Char → List (List Char)
  | [] => []
  | c :: s =>
    if isWordChar c then
      (c :: s.takeWhile isWordChar) :: wordRuns (s.dropWhile isWordChar)
    else wordRuns s
termination_by s => s.length
decreasing_by
  · exact lt_of_le_of_lt ((List.dropWhile_sublist _).length_le)
      (by simp only [List.length_cons]; omega)
  · simp

/-- The single token the regex scanner finds inside one maximal word run:
the suffix starting at the first `v_` that is followed by at least one
more character of the run. -/
def tokenOfRun : List Char → Option (List Char)
  | 'v' :: '_' :: c :: r => some ('v' :: '_' :: c :: r)
  | _ :: r => tokenOfRun r
  | [] => none

/-- No occurrence of the two-character sequence `v_` at all. -/
def noVU (s : List Char) : Prop := ¬ isSub ['v', '_'] s

/-- A string that the placeholder regex matches in full:
`v_` followed by a nonempty run of word characters. -/
def tokenShaped (k : List Char) : Prop :=
  ∃ w, k = 'v' :: '_' :: w ∧ w ≠ [] ∧ ∀ c ∈ w, isWordChar c

/-!  ## Document model (python-docx tree)

A `Run` is a span of text with one formatting attribute set (python-docx
`Run`); formatting is abstracted as a tag `fmt`.  A paragraph is its list
of runs.  An `Element` is anything with `.paragraphs` and `.tables`
(the document body, a header, a footer, or a table cell); a table is a
list of rows, a row a list of cells, and a cell is again an `Element`. -/

structure Run where
  text : List Char
  fmt : Nat
deriving DecidableEq, Repr

/-- A paragraph: an ordered list of runs. -/
abbrev Para := List Run

/-- An element with `.paragraphs` and `.tables` (document body, header,
footer, or table cell); each table is a list of rows of cells. -/
inductive Element : Type where
  | mk : List Para → List (List (List Element)) → Element

/-- A document section: optional header and footer
(`section.header` / `section.footer`). -/
structure Sect where
  header : Option Element
  footer : Option Element

/-- A Word document: body element, sections, and the paragraphs of every
`w:txbxContent` (text box) block reached through the raw XML. -/
structure Doc where
  body : Element
  sections : List Sect
  textboxes : List (List Para)

/-- The field map (`data` dict): insertion-ordered key/value pairs. -/
abbrev FieldMap := List (List Char × List Char)

mutual

/-- All paragraphs of an element, in traversal order: own paragraphs
first, then every table row cell recursively (`search_element` /
`replace_in_element` order). -/
def elemParas : Element → List Para
  | .mk ps ts => ps ++ tablesParas ts

def tablesParas : List (List (List Element)) → List Para
  | [] => []
  | t :: ts => rowsParas t ++ tablesParas ts

def rowsParas : List (List Element) → List Para
  | [] => []
  | r :: rs => cellsParas r ++ rowsParas rs

def cellsParas : List Element → List Para
  | [] => []
  | c :: cs => elemParas c ++ cellsParas cs

end

mutual

/-- Apply a paragraph transformation throughout an element
(the shape shared by `search_element` and `replace_in_element`). -/
def mapElem (f : Para → Para) : Element → Element
  | .mk ps ts => .mk (ps.map f) (tablesMap f ts)

def tablesMap (f : Para → Para) : List (List (List Element)) → List (List (List Element))
  | [] => []
  | t :: ts => rowsMap f t :: tablesMap f ts

def rowsMap (f : Para → Para) : List (List Element) → List (List Element)
  | [] => []
  | r :: rs => cellsMap f r :: rowsMap f rs

def cellsMap (f : Para → Para) : List Element → List Element
  | [] => []
  | c :: cs => mapElem f c :: cellsMap f cs

end

mutual

theorem elemParas_map (f : Para → Para) (e : Element) :
    elemParas (mapElem f e) = (elemParas e).map f := by
  match e with
  | .mk ps ts =>
    simp only [mapElem, elemParas, List.map_append, tablesParas_map]

theorem tablesParas_map (f : Para → Para) (ts : List (List (List Element))) :
    tablesParas (tablesMap f ts) = (tablesParas ts).map f := by
  match ts with
  | [] => rfl
  | t :: ts =>
    simp only [tablesMap, tablesParas, List.map_append, rowsParas_map, tablesParas_map]

theorem rowsParas_map (f : Para → Para) (rs : List (List Element)) :
    rowsParas (rowsMap f rs) = (rowsParas rs).map f := by
  match rs with
  | [] => rfl
  | r :: rs =>
    simp only [rowsMap, rowsParas, List.map_append, cellsParas_map, rowsParas_map]

theorem cellsParas_map (f : Para → Para) (cs : List Element) :
    cellsParas (cellsMap f cs) = (cellsParas cs).map f := by
  match cs with
  | [] => rfl
  | c :: cs =>
    simp only [cellsMap, cellsParas, List.map_append, elemParas_map, cellsParas_map]

end

/-!  ## `src/process_template.py` -/

/-- `"".join(run.text for run in runs)`. -/
def joinRunText (runs : Para) : List Char := (runs.map Run.text).flatten

/-- `find_placeholders_in_runs(runs)`: join the run texts and apply the
placeholder regex. -/
def find_placeholders_in_runs (runs : Para) : List (List Char) :=
  findAll (joinRunText runs)

/-- `replace_text_in_runs(runs, data)`: join the run texts; if any key
occurs in the joined text, replace each key present (in field-map order,
re-testing against the current text), write the result into the first
run and clear every other run; otherwise leave the runs untouched. -/
def replace_text_in_runs (runs : Para) (data : FieldMap) : Para :=
  let full_text := joinRunText runs
  if data.any (fun kv => decide (isSub kv.1 full_text)) then
    let newT := data.foldl
      (fun t kv => if isSub kv.1 t then pyReplace t kv.1 kv.2 else t) full_text
    match runs with
    | [] => []
    | r :: rest => { r with text := newT } :: rest.map (fun q => { q with text := [] })
  else runs

/-- All paragraphs of a document in the order the script visits them:
main body, then each section header and footer, then text-box paragraphs
found through the raw XML. -/
def docParas (d : Doc) : List Para :=
  elemParas d.body
    ++ (d.sections.map (fun s =>
          (s.header.map elemParas).getD [] ++ (s.footer.map elemParas).getD [])).flatten
    ++ d.textboxes.flatten

/-- `find_placeholders(template_path)`: collect the tokens of every
paragraph (body, tables, headers, footers, text boxes) into a set and
return it as a list; set semantics is modelled by deduplication. -/
def find_placeholders (d : Doc) : List (List Char) :=
  ((docParas d).map find_placeholders_in_runs).flatten.dedup

/-- The rewriting pass of `replace_placeholders_and_convert`: apply
`replace_text_in_runs` to every paragraph of the body, of each section
header and footer, and of each text box. -/
def substitutePhase (d : Doc) (data : FieldMap) : Doc :=
  { body := mapElem (replace_text_in_runs · data) d.body
    sections := d.sections.map (fun s =>
      { header := s.header.map (mapElem (replace_text_in_runs · data))
        footer := s.footer.map (mapElem (replace_text_in_runs · data)) })
    textboxes := d.textboxes.map (fun b => b.map (replace_text_in_runs · data)) }

/-- The text of a paragraph (`paragraph.text`). -/
def paraText (p : Para) : List Char := joinRunText p

/-- The whitespace characters stripped by Python `str.strip()` (ASCII). -/
def isPySpace (c : Char) : Bool :=
  c = ' ' || c = '\t' || c = '\n' || c = '\x0d' || c = '\x0b' || c = '\x0c'

/-- `not paragraph.text.strip()`: the text is empty or all whitespace. -/
def stripEmpty (p : Para) : Bool := (paraText p).all isPySpace

/-- Top-level paragraphs of the document body (`doc.paragraphs`). -/
def bodyParas (d : Doc) : List Para :=
  match d.body with
  | .mk ps _ => ps

/-- `if doc.paragraphs and not doc.paragraphs[-1].text.strip(): remove
it`: drop the final body paragraph when it is whitespace-empty. -/
def dropTrailingEmpty (d : Doc) : Doc :=
  match d.body with
  | .mk ps ts =>
    if ps ≠ [] ∧ stripEmpty (ps.getLast?.getD []) then
      { d with body := .mk ps.dropLast ts }
    else d

/-- The full in-memory document transformation performed by
`replace_placeholders_and_convert` between opening and saving. -/
def substituteDoc (d : Doc) (data : FieldMap) : Doc :=
  dropTrailingEmpty (substitutePhase d data)

/-!  ## Pipeline effects of `replace_placeholders_and_convert`

The I/O surface is modelled by oracles that say whether opening the
template, `doc.save`, and `docx2pdf.convert` fail, and by an event trace.
The `try` block of the source wraps both `doc.save` and `convert`; its
`except Exception` handler prints and does not re-raise. -/

/-- Python-level exceptions relevant to the scripts. -/
inductive PyErr : Type where
  | valueError (msg : List Char)
  | keyError (key : List Char)
  | openError
  | saveError
  | convertError
  | imageError (path : List Char)
deriving DecidableEq, Repr

/-- Observable actions of `replace_placeholders_and_convert`. -/
inductive Event : Type where
  | saveAttempt (d : Doc) (path : List Char)
  | saved (d : Doc) (path : List Char)
  | convertAttempt (src dst : List Char)
  | converted (src dst : List Char)
  | printed (s : List Char)
  | printedErrorDuringConversion (e : PyErr)

/-- Failure oracles for the external world. -/
structure Oracles where
  openFail : Bool
  saveFail : Bool
  convertFail : Bool

/-- Result of one call: the events that happened, and the exception that
propagated to the caller, if any. -/
structure PipeResult where
  events : List Event
  err : Option PyErr

/-- `', '.join(items)`. -/
def joinComma : List (List Char) → List Char
  | [] => []
  | [x] => x
  | x :: xs => x ++ ',' :: ' ' :: joinComma xs

/-- The `ValueError` message text of the missing-placeholder check. -/
def missingMsg (missing : List (List Char)) : List Char :=
  "Missing data for placeholders: ".toList ++ joinComma missing

/-- The remediation hint printed by the `except` handler. -/
def hintMsg : List Char :=
  "Ensure LibreOffice (Linux) or MS Word (Windows) is installed.".toList

/-- `p not in data` for the missing-key comprehension. -/
def notKeyOf (data : FieldMap) (p : List Char) : Bool :=
  ¬ data.any (fun kv => kv.1 == p)

/-- `replace_placeholders_and_convert(template_path, data, output_docx,
output_pdf)`: scan, fail on missing keys, rewrite, drop a trailing empty
paragraph, then save and convert inside one `try` whose handler prints
the error and a hint without re-raising. -/
def replace_placeholders_and_convert (template : Doc) (data : FieldMap)
    (output_docx output_pdf : List Char) (o : Oracles) : PipeResult :=
  if o.openFail then { events := [], err := some .openError }
  else
    let missing := (find_placeholders template).filter (notKeyOf data)
    if missing ≠ [] then
      { events := [], err := some (.valueError (missingMsg missing)) }
    else
      let doc := substituteDoc template data
      if o.saveFail then
        { events := [.saveAttempt doc output_docx,
                     .printedErrorDuringConversion .saveError,
                     .printed hintMsg],
          err := none }
      else if o.convertFail then
        { events := [.saveAttempt doc output_docx,
                     .saved doc output_docx,
                     .printed ("Saved modified document to ".toList ++ output_docx),
                     .convertAttempt output_docx output_pdf,
                     .printedErrorDuringConversion .convertError,
                     .printed hintMsg],
          err := none }
      else
        { events := [.saveAttempt doc output_docx,
                     .saved doc output_docx,
                     .printed ("Saved modified document to ".toList ++ output_docx),
                     .convertAttempt output_docx output_pdf,
                     .converted output_docx output_pdf,
                     .printed ("Converted ".toList ++ output_docx
                               ++ " to ".toList ++ output_pdf)],
          err := none }

/-!  ## `src/generate_voucher.py`

`create_voucher(data)` is a straight line of canvas calls at fixed
coordinates.  What matters for the claims is the order of the calls and
where each `data[...]` lookup happens: a missing key raises `KeyError`
at the point of use, after every earlier call has already run.  Events
record each call with the text or image path it uses; coordinates,
colors and font sizes are layout constants and are not modelled. -/

/-- Observable canvas actions of `create_voucher`. -/
inductive VEvent : Type where
  | canvasCreated (filename : List Char)
  | setFillColor
  | setStrokeColor
  | drawImage (path : List Char)
  | rect
  | line
  | setFont (name : List Char)
  | drawString (label : List Char)
  | drawRightString (text : List Char)
  | drawCentredString (text : List Char)
  | paragraphDrawn (text : List Char)
  | saved
deriving DecidableEq, Repr

/-- One straight-line step of `create_voucher`: an unconditional canvas
call, a call whose text is `data[key]` (raising `KeyError` when the key
is missing), or an image load (raising when the file is missing). -/
inductive VAct : Type where
  | emit (e : VEvent)
  | withKey (mk : List Char → VEvent) (key : List Char)
  | image (path : List Char)

/-- Dict lookup `data[k]` as an option. -/
def lookup (data : FieldMap) (k : List Char) : Option (List Char) :=
  (data.find? (fun kv => kv.1 == k)).map Prod.snd

/-- Run the straight-line script: stop with the exception at the first
failing lookup or image load; no handler exists in `create_voucher`. -/
def runVoucher (data : FieldMap) (imgOk : Bool) :
    List VAct → List VEvent × Option PyErr
  | [] => ([], none)
  | .emit e :: rest =>
    let r := runVoucher data imgOk rest
    (e :: r.1, r.2)
  | .withKey mk k :: rest =>
    match lookup data k with
    | none => ([], some (.keyError k))
    | some v =>
      let r := runVoucher data imgOk rest
      (mk v :: r.1, r.2)
  | .image p :: rest =>
    if imgOk then
      let r := runVoucher data imgOk rest
      (.drawImage p :: r.1, r.2)
    else ([], some (.imageError p))

/-- `f"BootBuddy_Voucher_{name.replace(' ', '_')}.pdf"`. -/
def voucherFilename (name : List Char) : List Char :=
  "BootBuddy_Voucher_".toList
    ++ name.map (fun c => if c = ' ' then '_' else c) ++ ".pdf".toList

/-- The authorization paragraph text (`auth_text`). -/
def auth_text : List Char := "This authorization will be redeemed by the Corporation of the City of Kitchener from a supplier with whom the Corporation has a contract for provision of safety footwear, provided that the authorization has been surrendered by an employee of the Corporation at the time of purchasing CSA approved safety footwear, and that the terms of the contract have been met.".toList

/-- The identification paragraph text (`auth_text_2`). -/
def auth_text_2 : List Char := "The employee must provide valid photo identification to the vendor upon purchase of the safety footwear.".toList

/-- The usage-note paragraph text (`note_text`). -/
def note_text : List Char := "<b>Note:</b> This voucher must NOT be photocopied and may be used to purchase one or more pair of safety footwear only for the designated employee up to the voucher limit. The voucher may only be used once. Any unauthorized purchase will require the employee to reimburse the Corporation of the City of Kitchener for the unauthorized amount.".toList

/-- The body of `create_voucher`, line by line. -/
def voucherScript : List VAct :=
  [ .withKey (fun n => .canvasCreated (voucherFilename n)) "employee_name".toList,
    .emit .setFillColor, .emit .setStrokeColor,
    .image "resource/cok_logo.png".toList,
    .image "resource/img_head.png".toList,
    .emit .rect,
    .emit (.setFont "Helvetica-Bold".toList),
    .emit (.drawString "Employee Name:".toList),
    .emit (.drawString "PO Number:".toList),
    .emit (.drawString "Employee ID:".toList),
    .emit (.setFont "Helvetica".toList),
    .withKey .drawRightString "employee_name".toList,
    .withKey .drawRightString "po_number".toList,
    .withKey .drawRightString "employee_id".toList,
    .emit .rect,
    .emit (.setFont "Helvetica-Bold".toList),
    .emit (.drawString "Maximum Value:".toList),
    .emit (.drawString "Expiry Date:".toList),
    .emit (.setFont "Helvetica".toList),
    .withKey .drawRightString "maximum_value".toList,
    .withKey .drawRightString "expiry_date".toList,
    .image "resource/img_boots.png".toList,
    .emit (.paragraphDrawn auth_text),
    .emit (.paragraphDrawn auth_text_2),
    .emit (.paragraphDrawn note_text),
    .emit .rect,
    .emit (.setFont "Helvetica-Bold".toList),
    .emit (.drawString "For Internal Use Only:".toList),
    .emit .line, .emit .line,
    .emit (.setFont "Helvetica-Bold".toList),
    .emit (.drawString "Date Voucher Issued:".toList),
    .emit (.drawString "Time Issued:".toList),
    .emit (.drawString "Division:".toList),
    .emit (.drawString "Cost Centre:".toList),
    .emit (.drawString "GL:".toList),
    .emit (.drawString "Issued By:".toList),
    .emit (.setFont "Helvetica".toList),
    .withKey .drawString "date_voucher_issued".toList,
    .withKey .drawString "time_issued".toList,
    .withKey .drawString "division".toList,
    .withKey .drawString "cost_centre".toList,
    .withKey .drawString "gl".toList,
    .withKey .drawString "issued_by".toList,
    .emit .line, .emit .line, .emit .line, .emit .line, .emit .line,
    .image "resource/img_mister_safety_shoes.png".toList,
    .image "resource/img_cok100.png".toList,
    .image "resource/img_work_authority.png".toList,
    .image "resource/img_112934.png".toList,
    .image "resource/img_marks.png".toList,
    .image "resource/img_acct.png".toList,
    .emit (.setFont "Helvetica".toList),
    .emit (.drawCentredString "Vendors: If you have any questions, call Supply Services, Mon-Fri 8:30am-5pm, (519) 741-2200 ext. 7217".toList),
    .emit .saved ]

/-- `create_voucher(data)`. -/
def create_voucher (data : FieldMap) (imgOk : Bool) :
    List VEvent × Option PyErr :=
  runVoucher data imgOk voucherScript

/-!  ## Lemma layer: word runs, the scanner, and `str.replace` -/

/-- Every character is in the regex word class. -/
def allWord (s : List Char) : Prop := ∀ c ∈ s, isWordChar c

/-- No character is in the regex word class. -/
def noWord (s : List Char) : Prop := ∀ c ∈ s, ¬ isWordChar c

instance (s : List Char) : Decidable (allWord s) :=
  inferInstanceAs (Decidable (∀ c ∈ s, isWordChar c = true))

instance (s : List Char) : Decidable (noWord s) :=
  inferInstanceAs (Decidable (∀ c ∈ s, ¬ isWordChar c = true))

/-- A word run in which the scanner finds nothing: no three-character
window `v`, `_`, `c` occurs. -/
def cleanRun (R : List Char) : Prop := ¬ ∃ c, isSub ['v', '_', c] R

theorem findAll_nil : findAll [] = [] := rfl

theorem findAll_start {c : Char} (r : List Char) (h : isWordChar c) :
    findAll ('v' :: '_' :: c :: r) =
      ('v' :: '_' :: c :: r.takeWhile isWordChar) :: findAll (r.dropWhile isWordChar) := by
  rw [findAll, List.length_cons, List.length_cons, List.length_cons,
      findAllAux_start, if_pos h,
      findAllAux_eq ((List.dropWhile_sublist (l := r) isWordChar).length_le.trans
        (by omega))]

theorem findAll_cons_ne {a : Char} (s : List Char) (h : a ≠ 'v') :
    findAll (a :: s) = findAll s := by
  rw [findAll, List.length_cons, findAllAux_cons_ne _ _ h]
  rfl

theorem findAll_v_not_u {b : Char} (s : List Char) (h : b ≠ '_') :
    findAll ('v' :: b :: s) = findAll (b :: s) := by
  rw [findAll, List.length_cons, List.length_cons, findAllAux_v_not_u _ _ h]
  rfl

theorem findAll_start_nonword {c : Char} (r : List Char) (h : ¬ isWordChar c) :
    findAll ('v' :: '_' :: c :: r) = findAll (c :: r) := by
  have h1 : findAll ('v' :: '_' :: c :: r) = findAll ('_' :: c :: r) := by
    rw [findAll, List.length_cons, List.length_cons, List.length_cons,
        findAllAux_start, if_neg h]
    rfl
  rw [h1, findAll_cons_ne _ (by decide)]

theorem findAll_v_nil : findAll ['v'] = [] := by decide

theorem findAll_vu_nil : findAll ['v', '_'] = [] := by decide

theorem tokenOfRun_nil : tokenOfRun [] = none := rfl

theorem tokenOfRun_start (c : Char) (r : List Char) :
    tokenOfRun ('v' :: '_' :: c :: r) = some ('v' :: '_' :: c :: r) := rfl

theorem tokenOfRun_cons_ne {a : Char} (s : List Char) (h : a ≠ 'v') :
    tokenOfRun (a :: s) = tokenOfRun s := by
  rw [tokenOfRun.eq_def]
  split
  · rename_i heq; injection heq with h1 _; exact absurd h1 h
  · rename_i hd rt hmiss heq; injection heq with _ h2; rw [h2]
  · rename_i heq; simp at heq

theorem tokenOfRun_v_nil : tokenOfRun ['v'] = none := rfl

theorem tokenOfRun_v_not_u {b : Char} (s : List Char) (h : b ≠ '_') :
    tokenOfRun ('v' :: b :: s) = tokenOfRun (b :: s) := by
  rw [tokenOfRun.eq_def]
  split
  · rename_i heq
    injection heq with _ h2; injection h2 with h3 _; exact absurd h3 h
  · rename_i hd rt hmiss heq; injection heq with _ h2; rw [h2]
  · rename_i heq; simp at heq

theorem tokenOfRun_vu_nil : tokenOfRun ['v', '_'] = none := rfl

theorem wordRuns_nil : wordRuns [] = [] := by simp [wordRuns]

theorem wordRuns_cons_word {c : Char} (s : List Char) (h : isWordChar c) :
    wordRuns (c :: s) =
      (c :: s.takeWhile isWordChar) :: wordRuns (s.dropWhile isWordChar) := by
  simp [wordRuns, h]

theorem wordRuns_cons_nonword {c : Char} (s : List Char) (h : ¬ isWordChar c) :
    wordRuns (c :: s) = wordRuns s := by
  simp [wordRuns, h]

theorem wr_shape : ∀ (s : List Char), ∀ R ∈ wordRuns s, R ≠ [] ∧ allWord R := by
  intro s
  induction s using wordRuns.induct with
  | case1 => simp [wordRuns_nil]
  | case2 c s h ih =>
    rw [wordRuns_cons_word s h]
    intro R hR
    rcases List.mem_cons.mp hR with h1 | h1
    · subst h1
      refine ⟨by simp, ?_⟩
      intro x hx
      rcases List.mem_cons.mp hx with h2 | h2
      · subst h2; exact h
      · exact List.mem_takeWhile_imp h2
    · exact ih R h1
  | case3 c s h ih =>
    rw [wordRuns_cons_nonword s h]
    exact ih

/-- The head of `g`, if any, is not a word character. -/
def nwHead (g : List Char) : Prop := ∀ c, g.head? = some c → ¬ isWordChar c

theorem takeWhile_boundary {g : List Char} (hg : nwHead g) :
    g.takeWhile isWordChar = [] := by
  rcases g with _ | ⟨c, g⟩
  · rfl
  · exact List.takeWhile_cons_of_neg (hg c rfl)

theorem dropWhile_boundary {g : List Char} (hg : nwHead g) :
    g.dropWhile isWordChar = g := by
  rcases g with _ | ⟨c, g⟩
  · rfl
  · exact List.dropWhile_cons_of_neg (hg c rfl)

theorem wordRuns_run_append {W g : List Char} (hW : allWord W) (hne : W ≠ [])
    (hg : nwHead g) : wordRuns (W ++ g) = W :: wordRuns g := by
  rcases W with _ | ⟨a, w⟩
  · exact absurd rfl hne
  · have ha : isWordChar a := hW a (by simp)
    have hw : ∀ x ∈ w, isWordChar x = true := fun x hx => hW x (by simp [hx])
    rw [List.cons_append, wordRuns_cons_word _ ha,
        List.takeWhile_append_of_pos hw, List.dropWhile_append_of_pos hw,
        takeWhile_boundary hg, dropWhile_boundary hg, List.append_nil]

theorem wordRuns_nonword_append {v z : List Char} (hv : noWord v) :
    wordRuns (v ++ z) = wordRuns z := by
  induction v with
  | nil => rfl
  | cons c v ih =>
    rw [List.cons_append, wordRuns_cons_nonword _ (hv c (by simp))]
    exact ih (fun x hx => hv x (by simp [hx]))

theorem wr_infix : ∀ (s : List Char), ∀ R ∈ wordRuns s, isSub R s := by
  intro s
  induction s using wordRuns.induct with
  | case1 => simp [wordRuns_nil]
  | case2 c s h ih =>
    rw [wordRuns_cons_word s h]
    intro R hR
    rcases List.mem_cons.mp hR with h1 | h1
    · subst h1
      exact (List.cons_prefix_cons.mpr ⟨rfl, List.takeWhile_prefix _⟩).isInfix
    · exact ((ih R h1).trans ((List.dropWhile_suffix _).isInfix)).trans
        ((List.suffix_cons c s).isInfix)
  | case3 c s h ih =>
    rw [wordRuns_cons_nonword s h]
    intro R hR
    exact List.infix_cons (ih R hR)

theorem pyReplaceNE_nil (old new : List Char) : pyReplaceNE old new [] = [] := rfl

theorem pyReplaceNE_pos {old : List Char} (new : List Char) {c : Char} {rest : List Char}
    (hne : old ≠ []) (hp : old <+: (c :: rest)) :
    pyReplaceNE old new (c :: rest) =
      new ++ pyReplaceNE old new ((c :: rest).drop old.length) := by
  have hlold : 0 < old.length := List.length_pos.mpr hne
  rw [pyReplaceNE, List.length_cons, pyReplaceAux_succ, if_pos ⟨hne, hp⟩,
      pyReplaceAux_eq_ne (by simp only [List.length_drop, List.length_cons]; omega)]

theorem pyReplaceNE_neg {old : List Char} (new : List Char) {c : Char} {rest : List Char}
    (hp : ¬ old <+: (c :: rest)) :
    pyReplaceNE old new (c :: rest) = c :: pyReplaceNE old new rest := by
  rw [pyReplaceNE, List.length_cons, pyReplaceAux_succ, if_neg (fun h => hp h.2)]
  rfl

theorem pyReplaceNE_of_not_sub {old new : List Char} :
    ∀ {s : List Char}, ¬ isSub old s → pyReplaceNE old new s = s := by
  intro s
  induction s with
  | nil => intro _; exact pyReplaceNE_nil old new
  | cons c rest ih =>
    intro h
    rw [pyReplaceNE_neg new (fun hc => h hc.isInfix)]
    rw [ih (fun hc => h (List.infix_cons hc))]

theorem word_prefix_stays {g : List Char} (hg : nwHead g) :
    ∀ {old : List Char}, allWord old → ∀ {x : List Char}, old <+: x ++ g → old <+: x := by
  intro old
  induction old with
  | nil => intro _ x _; exact List.nil_prefix
  | cons a old ih =>
    intro hW x hp
    rcases x with _ | ⟨b, x⟩
    · rcases g with _ | ⟨c, g⟩
      · simp at hp
      · rw [List.nil_append] at hp
        have := List.cons_prefix_cons.mp hp
        exact absurd (hW a (by simp)) (this.1 ▸ hg c rfl)
    · rw [List.cons_append] at hp
      have h2 := List.cons_prefix_cons.mp hp
      exact List.cons_prefix_cons.mpr
        ⟨h2.1, ih (fun y hy => hW y (by simp [hy])) h2.2⟩

theorem pyReplaceNE_word_append {old new g : List Char}
    (hold : allWord old) (hne : old ≠ []) (hg : nwHead g) :
    ∀ (n : ℕ) (W : List Char), W.length = n → allWord W →
      pyReplaceNE old new (W ++ g) = pyReplaceNE old new W ++ pyReplaceNE old new g := by
  intro n
  induction n using Nat.strong_induction_on with
  | _ n ih =>
    intro W hlen hW
    rcases W with _ | ⟨c, w⟩
    · simp [pyReplaceNE_nil]
    · by_cases hp : old <+: (c :: w)
      · have hp2 : old <+: (c :: w) ++ g := hp.trans (List.prefix_append _ _)
        rw [List.cons_append] at hp2 ⊢
        rw [pyReplaceNE_pos new hne hp2, pyReplaceNE_pos new hne hp]
        rw [← List.cons_append, List.drop_append_of_le_length hp.length_le]
        have hlen2 : w.length + 1 = n := by simpa using hlen
        have hlt : ((c :: w).drop old.length).length < n := by
          have h1 : 0 < old.length := List.length_pos.mpr hne
          simp only [List.length_drop, List.length_cons]
          omega
        rw [ih _ hlt _ rfl (fun y hy => hW y ((List.drop_subset _ _) hy))]
        simp
      · have hp2 : ¬ old <+: (c :: (w ++ g)) := by
          intro hc
          exact hp (word_prefix_stays hg hold (x := c :: w) (by rw [List.cons_append]; exact hc))
        rw [List.cons_append, pyReplaceNE_neg new hp2, pyReplaceNE_neg new hp]
        have hlt : w.length < n := by simp only [← hlen, List.length_cons]; omega
        rw [ih _ hlt w rfl (fun y hy => hW y (by simp [hy]))]
        simp

theorem tokenShaped_head {k : List Char} (hk : tokenShaped k) :
    ∃ w, k = 'v' :: '_' :: w ∧ w ≠ [] := by
  obtain ⟨w, h1, h2, _⟩ := hk
  exact ⟨w, h1, h2⟩

theorem tokenShaped_allWord {k : List Char} (hk : tokenShaped k) : allWord k := by
  obtain ⟨w, h1, _, h3⟩ := hk
  subst h1
  intro c hc
  rcases List.mem_cons.mp hc with h | h
  · subst h; decide
  · rcases List.mem_cons.mp h with h | h
    · subst h; decide
    · exact h3 c h

theorem tokenShaped_ne_nil {k : List Char} (hk : tokenShaped k) : k ≠ [] := by
  obtain ⟨w, h1, _⟩ := tokenShaped_head hk
  subst h1; simp

/-- A token-shaped string occurring anywhere forces an occurrence of the
pair `v`, `_`. -/
theorem vu_of_tokenShaped_sub {k s : List Char} (hk : tokenShaped k)
    (hs : isSub k s) : isSub ['v', '_'] s := by
  obtain ⟨w, h1, _⟩ := tokenShaped_head hk
  subst h1
  exact (List.IsPrefix.isInfix ⟨w, rfl⟩).trans hs

/-- A token-shaped string occurring anywhere forces a three-character
window `v`, `_`, `c`. -/
theorem window_of_tokenShaped_sub {k s : List Char} (hk : tokenShaped k)
    (hs : isSub k s) : ∃ c, isSub ['v', '_', c] s := by
  obtain ⟨w, h1, h2⟩ := tokenShaped_head hk
  subst h1
  rcases w with _ | ⟨c, w⟩
  · exact absurd rfl h2
  · exact ⟨c, (List.IsPrefix.isInfix ⟨w, rfl⟩).trans hs⟩

/-- A token-shaped string cannot occur in a clean run. -/
theorem cleanRun_no_token {k R : List Char} (hk : tokenShaped k)
    (hc : cleanRun R) : ¬ isSub k R := fun hs =>
  hc (window_of_tokenShaped_sub hk hs)

/-- A string with no `v_` pair is clean. -/
theorem cleanRun_of_noVU {R : List Char} (h : noVU R) : cleanRun R := by
  rintro ⟨c, hc⟩
  exact h ((List.IsPrefix.isInfix ⟨[c], rfl⟩).trans hc)

theorem noVU_of_cons {a : Char} {s : List Char} (h : noVU (a :: s)) : noVU s :=
  fun hc => h (List.infix_cons hc)

/-- Replacing a token-shaped `old` in `α ++ old` where `α` has no `v_`
pair rewrites exactly the trailing occurrence. -/
theorem pyReplaceNE_tail_occurrence {old new : List Char} (hk : tokenShaped old) :
    ∀ {α : List Char}, noVU α → pyReplaceNE old new (α ++ old) = α ++ new := by
  intro α
  induction α with
  | nil =>
    intro _
    obtain ⟨w, hw, _⟩ := tokenShaped_head hk
    rw [List.nil_append, hw]
    rw [pyReplaceNE_pos new (by simp) (by rw [← hw])]
    rw [← hw, List.drop_length, pyReplaceNE_nil, List.append_nil, List.nil_append]
  | cons c α ih =>
    intro hα
    have hnp : ¬ old <+: (c :: (α ++ old)) := by
      intro hp
      obtain ⟨w, hw, hwne⟩ := tokenShaped_head hk
      rw [hw] at hp
      have h1 := List.cons_prefix_cons.mp hp
      rcases α with _ | ⟨b, α2⟩
      · have h3 : ('_' :: w) <+: ('v' :: '_' :: w) := by simpa using h1.2
        have h2 := List.cons_prefix_cons.mp h3
        exact absurd h2.1 (by decide)
      · rw [List.cons_append] at h1
        have h2 := List.cons_prefix_cons.mp h1.2
        apply hα
        refine List.IsPrefix.isInfix ?_
        rw [h1.1, h2.1]
        exact List.cons_prefix_cons.mpr ⟨rfl, List.cons_prefix_cons.mpr ⟨rfl, List.nil_prefix⟩⟩
    rw [List.cons_append, pyReplaceNE_neg new hnp, ih (noVU_of_cons hα), List.cons_append]

/-- A token-shaped `k0` cannot occur in `α ++ k` when `α` has no `v_`
pair, `k` is token-shaped, and `k0` is not a substring of `k`. -/
theorem no_other_occurrence {k0 k : List Char} (hk0 : tokenShaped k0)
    (hk : tokenShaped k) (hsub : ¬ isSub k0 k) :
    ∀ {α : List Char}, noVU α → ¬ isSub k0 (α ++ k) := by
  intro α
  induction α with
  | nil => intro _ h; exact hsub (by simpa using h)
  | cons c α ih =>
    intro hα h
    simp only [isSub] at h
    rw [List.cons_append, List.infix_cons_iff] at h
    rcases h with h | h
    · obtain ⟨w, hw, hwne⟩ := tokenShaped_head hk0
      rw [hw] at h
      have h1 := List.cons_prefix_cons.mp h
      rcases α with _ | ⟨b, α2⟩
      · obtain ⟨w2, hw2, _⟩ := tokenShaped_head hk
        have h3 : ('_' :: w) <+: ('v' :: '_' :: w2) := by
          rw [hw2] at h1
          simpa using h1.2
        have h2 := List.cons_prefix_cons.mp h3
        exact absurd h2.1 (by decide)
      · rw [List.cons_append] at h1
        have h2 := List.cons_prefix_cons.mp h1.2
        apply hα
        refine List.IsPrefix.isInfix ?_
        rw [h1.1, h2.1]
        exact List.cons_prefix_cons.mpr ⟨rfl, List.cons_prefix_cons.mpr ⟨rfl, List.nil_prefix⟩⟩
    · exact ih (noVU_of_cons hα) h

theorem nwHead_dropWhile (s : List Char) : nwHead (s.dropWhile isWordChar) := by
  intro c hc
  have := List.head?_dropWhile_not isWordChar s
  rw [hc] at this
  simp only [this]
  simp

theorem filterMap_cons_toList {α β : Type} (f : α → Option β) (a : α) (l : List α) :
    List.filterMap f (a :: l) = (f a).toList ++ List.filterMap f l := by
  rw [List.filterMap_cons]
  rcases h : f a with _ | b <;> simp

/-- The regex scanner on `W ++ g`, where `W` is a word run and `g` starts
with a non-word character: at most the single run token, then the scan of
`g`. -/
theorem findAll_run_append {g : List Char} (hg : nwHead g) :
    ∀ (W : List Char), allWord W →
      findAll (W ++ g) = (tokenOfRun W).toList ++ findAll g := by
  intro W
  induction W with
  | nil => simp [tokenOfRun_nil]
  | cons a w ih =>
    intro hW
    have hw : allWord w := fun y hy => hW y (by simp [hy])
    by_cases ha : a = 'v'
    · subst ha
      rcases w with _ | ⟨b, w2⟩
      · rcases g with _ | ⟨c, g2⟩
        · simp [findAll_v_nil, tokenOfRun_v_nil, findAll_nil]
        · have hc : ¬ isWordChar c := hg c rfl
          have hcu : c ≠ '_' := fun h => hc (by subst h; decide)
          rw [List.cons_append, List.nil_append, findAll_v_not_u _ hcu,
              tokenOfRun_v_nil]
          simp
      · by_cases hb : b = '_'
        case neg =>
          rw [List.cons_append, List.cons_append, findAll_v_not_u _ hb,
              tokenOfRun_v_not_u _ hb, ← List.cons_append]
          exact ih hw
        case pos =>
          subst hb
          rcases w2 with _ | ⟨c2, w3⟩
          · rcases g with _ | ⟨c, g2⟩
            · simp [findAll_vu_nil, tokenOfRun_vu_nil, findAll_nil]
            · have hc : ¬ isWordChar c := hg c rfl
              rw [List.cons_append, List.cons_append, List.nil_append,
                  findAll_start_nonword _ hc, findAll_cons_ne _ (fun h => hc (by subst h; decide)),
                  tokenOfRun_vu_nil]
              simp [findAll_cons_ne]
          · have hc2 : isWordChar c2 := hW c2 (by simp)
            have hw3 : ∀ x ∈ w3, isWordChar x = true := fun x hx => hW x (by simp [hx])
            rw [List.cons_append, List.cons_append, List.cons_append,
                findAll_start _ hc2, List.takeWhile_append_of_pos hw3,
                List.dropWhile_append_of_pos hw3, takeWhile_boundary hg,
                dropWhile_boundary hg, List.append_nil, tokenOfRun_start]
            simp
    · rw [List.cons_append, findAll_cons_ne _ ha, tokenOfRun_cons_ne _ ha]
      exact ih hw

/-- The regex scan of a string is the collection of its word-run tokens. -/
theorem findAll_eq_runs (s : List Char) :
    findAll s = (wordRuns s).filterMap tokenOfRun := by
  induction s using wordRuns.induct with
  | case1 => rw [findAll_nil, wordRuns_nil]; rfl
  | case2 c s h ih =>
    rw [wordRuns_cons_word s h, filterMap_cons_toList]
    have hsplit : c :: s = (c :: s.takeWhile isWordChar) ++ s.dropWhile isWordChar := by
      rw [List.cons_append, List.takeWhile_append_dropWhile]
    rw [hsplit, findAll_run_append (nwHead_dropWhile s) _ ?_, ih]
    intro x hx
    rcases List.mem_cons.mp hx with h1 | h1
    · subst h1; exact h
    · exact List.mem_takeWhile_imp h1
  | case3 c s h ih =>
    rw [wordRuns_cons_nonword s h, findAll_cons_ne s (fun hc => h (by subst hc; decide)), ih]

theorem window_cons_iff {a : Char} {s : List Char} {c : Char} :
    isSub ['v', '_', c] (a :: s) ↔
      (a = 'v' ∧ ['_', c] <+: s) ∨ isSub ['v', '_', c] s := by
  constructor
  · intro h
    rcases List.infix_cons_iff.mp h with h | h
    · have h1 := List.cons_prefix_cons.mp h
      exact Or.inl ⟨h1.1.symm, h1.2⟩
    · exact Or.inr h
  · intro h
    rcases h with ⟨h1, h2⟩ | h
    · subst h1
      exact (List.cons_prefix_cons.mpr ⟨rfl, h2⟩).isInfix
    · exact List.infix_cons h

theorem tokenOfRun_cons_ne' {a : Char} {r : List Char}
    (hmiss : ∀ (c : Char) (r2 : List Char), a = 'v' → r = '_' :: c :: r2 → False) :
    tokenOfRun (a :: r) = tokenOfRun r := by
  by_cases ha : a = 'v'
  · subst ha
    rcases r with _ | ⟨b, r2⟩
    · rfl
    · by_cases hb : b = '_'
      · subst hb
        rcases r2 with _ | ⟨c, r3⟩
        · rfl
        · exact (hmiss c r3 rfl rfl).elim
      · exact tokenOfRun_v_not_u _ hb
  · exact tokenOfRun_cons_ne _ ha

theorem tokenOfRun_none_iff (R : List Char) :
    tokenOfRun R = none ↔ cleanRun R := by
  induction R using tokenOfRun.induct with
  | case1 c r =>
    rw [tokenOfRun_start]
    constructor
    · intro h; cases h
    · intro h
      exact absurd ⟨c, (List.cons_prefix_cons.mpr
        ⟨rfl, List.cons_prefix_cons.mpr ⟨rfl, List.cons_prefix_cons.mpr
          ⟨rfl, List.nil_prefix⟩⟩⟩).isInfix⟩ h
  | case2 a r hmiss ih =>
    rw [tokenOfRun_cons_ne' hmiss, ih]
    constructor
    · intro h ⟨c, hc⟩
      rcases window_cons_iff.mp hc with ⟨h1, h2⟩ | hc2
      · rcases r with _ | ⟨b, r2⟩
        · simp at h2
        · have h3 := List.cons_prefix_cons.mp h2
          rcases r2 with _ | ⟨d, r3⟩
          · simp at h3
          · exact hmiss d r3 h1 (by rw [h3.1])
      · exact h ⟨c, hc2⟩
    · intro h ⟨c, hc⟩
      exact h ⟨c, List.infix_cons hc⟩
  | case3 => simp [tokenOfRun_nil, cleanRun, isSub, List.infix_nil]


/-- Decomposition of a run around its token: everything before the first
valid `v_` contains no `v_` pair at all. -/
theorem tokenOfRun_some_decomp {R t : List Char} (h : tokenOfRun R = some t) :
    ∃ α, R = α ++ t ∧ noVU α ∧ ∃ c r, t = 'v' :: '_' :: c :: r := by
  induction R using tokenOfRun.induct with
  | case1 c r =>
    rw [tokenOfRun_start] at h
    injection h with h
    subst h
    refine ⟨[], rfl, ?_, c, r, rfl⟩
    intro hc
    rw [isSub, List.infix_nil] at hc
    cases hc
  | case2 a r hmiss ih =>
    rw [tokenOfRun_cons_ne' hmiss] at h
    obtain ⟨α, hR, hα, c, r2, ht⟩ := ih h
    refine ⟨a :: α, by rw [List.cons_append, hR], ?_, c, r2, ht⟩
    intro hc
    rcases List.infix_cons_iff.mp hc with hp | hi
    · have h1 := List.cons_prefix_cons.mp hp
      rcases α with _ | ⟨b, α2⟩
      · simp at h1
      · have h2 := List.cons_prefix_cons.mp h1.2
        rcases α2 with _ | ⟨d, α3⟩
        · refine hmiss 'v' ('_' :: c :: r2) h1.1.symm ?_
          rw [hR, ht, ← h2.1]
          rfl
        · refine hmiss d (α3 ++ t) h1.1.symm ?_
          rw [hR, ← h2.1]
          rfl
    · exact hα hi
  | case3 => rw [tokenOfRun_nil] at h; cases h

/-- Run invariant during the replacement fold: each maximal word run is
either clean or consists of a `v_`-pair-free prefix followed by exactly
one still-unprocessed key. -/
def RunInv (ks : List (List Char)) (R : List Char) : Prop :=
  cleanRun R ∨ ∃ α k, R = α ++ k ∧ noVU α ∧ tokenShaped k ∧ k ∈ ks

/-- String invariant: every maximal word run satisfies `RunInv`. -/
def StrInv (ks : List (List Char)) (s : List Char) : Prop :=
  ∀ R ∈ wordRuns s, RunInv ks R

theorem pyReplaceNE_nwHead {k0 v0 : List Char} (hk0 : tokenShaped k0) {g : List Char}
    (hg : nwHead g) : nwHead (pyReplaceNE k0 v0 g) := by
  rcases g with _ | ⟨d, g2⟩
  · rw [pyReplaceNE_nil]; exact hg
  · have hd : ¬ isWordChar d := hg d rfl
    have hnp : ¬ k0 <+: (d :: g2) := by
      intro hp
      obtain ⟨w, hw, _⟩ := tokenShaped_head hk0
      rw [hw] at hp
      have h1 := List.cons_prefix_cons.mp hp
      exact hd (by rw [← h1.1]; decide)
    rw [pyReplaceNE_neg v0 hnp]
    intro c hc
    injection hc with hc
    rw [← hc]
    exact hd

theorem allWord_of_append_left {a b : List Char} (h : allWord (a ++ b)) : allWord a :=
  fun x hx => h x (by simp [hx])

/-- One replacement step preserves the invariant, discharging the
processed key. -/
theorem nwHead_append_of_noWord {v X : List Char} (hne : v ≠ []) (hv : noWord v) :
    nwHead (v ++ X) := by
  rcases v with _ | ⟨d, v2⟩
  · exact absurd rfl hne
  · intro c hc
    injection hc with hc
    rw [← hc]
    exact hv d (by simp)

/-- One replacement step preserves the invariant, discharging the
processed key. -/
theorem replace_step {k0 v0 : List Char} (hk0 : tokenShaped k0) (hv0ne : v0 ≠ [])
    (hv0 : noWord v0) {ks : List (List Char)}
    (hdist : ∀ k, k ∈ ks → k ≠ k0 → ¬ isSub k0 k) :
    ∀ (n : ℕ) (s : List Char), s.length = n → StrInv (k0 :: ks) s →
      StrInv ks (pyReplaceNE k0 v0 s) := by
  intro n
  induction n using Nat.strong_induction_on with
  | _ n ih =>
    intro s hlen hinv
    rcases s with _ | ⟨c, s'⟩
    · rw [pyReplaceNE_nil]; intro R hR; rw [wordRuns_nil] at hR; cases hR
    · by_cases hc : isWordChar c
      · set W := c :: s'.takeWhile isWordChar with hWdef
        set g := s'.dropWhile isWordChar with hgdef
        have hsplit : c :: s' = W ++ g := by
          rw [hWdef, hgdef, List.cons_append, List.takeWhile_append_dropWhile]
        have hWword : allWord W := by
          intro x hx
          rcases List.mem_cons.mp hx with h1 | h1
          · subst h1; exact hc
          · exact List.mem_takeWhile_imp h1
        have hg : nwHead g := nwHead_dropWhile s'
        have hruns : wordRuns (c :: s') = W :: wordRuns g := by
          rw [hsplit]; exact wordRuns_run_append hWword (by simp [hWdef]) hg
        have hinvW : RunInv (k0 :: ks) W := hinv W (by rw [hruns]; simp)
        have hinvg : StrInv (k0 :: ks) g := by
          intro R hR; exact hinv R (by rw [hruns]; simp [hR])
        have hglen : g.length < n := by
          have := (List.dropWhile_sublist (l := s') isWordChar).length_le
          simp only [← hlen, hgdef, List.length_cons]
          omega
        have hrecg : StrInv ks (pyReplaceNE k0 v0 g) := ih _ hglen g rfl hinvg
        have hgout : nwHead (pyReplaceNE k0 v0 g) := pyReplaceNE_nwHead hk0 hg
        rw [hsplit, pyReplaceNE_word_append (tokenShaped_allWord hk0)
          (tokenShaped_ne_nil hk0) hg W.length W rfl hWword]
        rcases hinvW with hclean | ⟨α, k, hWk, hα, hkshape, hkmem⟩
        · rw [pyReplaceNE_of_not_sub (cleanRun_no_token hk0 hclean)]
          intro R hR
          rw [wordRuns_run_append hWword (by simp [hWdef]) hgout] at hR
          rcases List.mem_cons.mp hR with h1 | h1
          · subst h1; exact Or.inl hclean
          · exact hrecg R h1
        · by_cases hkk : k = k0
          · rw [hWk, hkk, pyReplaceNE_tail_occurrence hk0 hα, List.append_assoc]
            have hαword : allWord α := allWord_of_append_left (hWk ▸ hWword)
            have hnw : nwHead (v0 ++ pyReplaceNE k0 v0 g) :=
              nwHead_append_of_noWord hv0ne hv0
            rcases α with _ | ⟨a0, α2⟩
            · rw [List.nil_append]
              intro R hR
              rw [wordRuns_nonword_append hv0] at hR
              exact hrecg R hR
            · intro R hR
              rw [wordRuns_run_append hαword (by simp) hnw,
                  wordRuns_nonword_append hv0] at hR
              rcases List.mem_cons.mp hR with h1 | h1
              · subst h1; exact Or.inl (cleanRun_of_noVU hα)
              · exact hrecg R h1
          · have hnsub : ¬ isSub k0 k := hdist k
              (by rcases List.mem_cons.mp hkmem with h1 | h1
                  · exact absurd h1 hkk
                  · exact h1) hkk
            rw [hWk, pyReplaceNE_of_not_sub (no_other_occurrence hk0 hkshape hnsub hα),
              ← hWk]
            intro R hR
            rw [wordRuns_run_append hWword (by simp [hWdef]) hgout] at hR
            rcases List.mem_cons.mp hR with h1 | h1
            · subst h1
              refine Or.inr ⟨α, k, hWk, hα, hkshape, ?_⟩
              rcases List.mem_cons.mp hkmem with h2 | h2
              · exact absurd h2 hkk
              · exact h2
            · exact hrecg R h1
      · have hnp : ¬ k0 <+: (c :: s') := by
          intro hp
          obtain ⟨w, hw, _⟩ := tokenShaped_head hk0
          rw [hw] at hp
          exact hc (by rw [← (List.cons_prefix_cons.mp hp).1]; decide)
        rw [pyReplaceNE_neg v0 hnp]
        have hlen2 : s'.length < n := by simp only [← hlen, List.length_cons]; omega
        have hinv2 : StrInv (k0 :: ks) s' := by
          intro R hR
          exact hinv R (by rw [wordRuns_cons_nonword _ hc]; exact hR)
        have hrec := ih _ hlen2 s' rfl hinv2
        intro R hR
        rw [wordRuns_cons_nonword _ hc] at hR
        exact hrec R hR

/-- Amendment hypotheses for the round-trip property: every key matches
the placeholder pattern in full, no key is a substring of a different
key, and every value is a nonempty string of non-word characters. -/
def GoodData (data : FieldMap) : Prop :=
  (∀ kv ∈ data, tokenShaped kv.1 ∧ kv.2 ≠ [] ∧ noWord kv.2) ∧
  (∀ kv1 ∈ data, ∀ kv2 ∈ data, isSub kv1.1 kv2.1 → kv1.1 = kv2.1)

theorem goodData_tail {kv : List Char × List Char} {rest : FieldMap}
    (h : GoodData (kv :: rest)) : GoodData rest :=
  ⟨fun x hx => h.1 x (by simp [hx]),
   fun x hx y hy => h.2 x (by simp [hx]) y (by simp [hy])⟩

/-- If the processed key does not occur in the string, the invariant drops
the key for free. -/
theorem skip_step {k0 : List Char} {ks : List (List Char)} {s : List Char}
    (hns : ¬ isSub k0 s) (hinv : StrInv (k0 :: ks) s) : StrInv ks s := by
  intro R hR
  rcases hinv R hR with hclean | ⟨α, k, hRk, hα, hkshape, hkmem⟩
  · exact Or.inl hclean
  · rcases List.mem_cons.mp hkmem with h1 | h1
    · subst h1
      exact absurd (((List.suffix_append α k).isInfix.trans
        (hRk ▸ wr_infix s R hR))) hns
    · exact Or.inr ⟨α, k, hRk, hα, hkshape, h1⟩

/-- The replacement loop of `replace_text_in_runs`. -/
def replaceLoop (data : FieldMap) (t : List Char) : List Char :=
  data.foldl (fun t kv => if isSub kv.1 t then pyReplace t kv.1 kv.2 else t) t

theorem replaceLoop_cons (kv : List Char × List Char) (rest : FieldMap) (t : List Char) :
    replaceLoop (kv :: rest) t =
      replaceLoop rest (if isSub kv.1 t then pyReplace t kv.1 kv.2 else t) := by
  rfl

/-- After the whole loop over a good field map, no word run can still
carry a key, so every run is clean. -/
theorem loop_clean {data : FieldMap} (hgood : GoodData data) :
    ∀ {s : List Char}, StrInv (data.map Prod.fst) s →
      ∀ R ∈ wordRuns (replaceLoop data s), cleanRun R := by
  induction data with
  | nil =>
    intro s hinv R hR
    rcases hinv R hR with hclean | ⟨α, k, _, _, _, hkmem⟩
    · exact hclean
    · simp at hkmem
  | cons kv rest ih =>
    intro s hinv
    rw [replaceLoop_cons]
    obtain ⟨hshape, hvne, hvnw⟩ := hgood.1 kv (by simp)
    by_cases hocc : isSub kv.1 s
    · rw [if_pos hocc]
      have hdist : ∀ k, k ∈ rest.map Prod.fst → k ≠ kv.1 → ¬ isSub kv.1 k := by
        intro k hk hne hsub
        obtain ⟨kv2, hkv2, hkv2e⟩ := List.mem_map.mp hk
        have heq := hgood.2 kv (by simp) kv2 (by simp [hkv2]) (by rw [hkv2e]; exact hsub)
        exact hne (by rw [← hkv2e, ← heq])
      have hrep : pyReplace s kv.1 kv.2 = pyReplaceNE kv.1 kv.2 s := by
        rw [pyReplace, if_neg (tokenShaped_ne_nil hshape)]
      rw [hrep]
      exact ih (goodData_tail hgood)
        (replace_step hshape hvne hvnw hdist s.length s rfl (by simpa using hinv))
    · rw [if_neg hocc]
      exact ih (goodData_tail hgood) (skip_step hocc (by simpa using hinv))

/-- A string whose word runs are all clean contains no token. -/
theorem findAll_eq_nil_of_clean {s : List Char}
    (h : ∀ R ∈ wordRuns s, cleanRun R) : findAll s = [] := by
  rw [findAll_eq_runs]
  rw [List.filterMap_eq_nil_iff]
  intro R hR
  exact (tokenOfRun_none_iff R).mpr (h R hR)

/-- Initial invariant: all tokens of `s` are keys. -/
theorem strInv_init {s : List Char} {keys : List (List Char)}
    (hscan : ∀ t ∈ findAll s, t ∈ keys) : StrInv keys s := by
  intro R hR
  rcases htok : tokenOfRun R with _ | t
  · exact Or.inl ((tokenOfRun_none_iff R).mp htok)
  · obtain ⟨α, hRd, hα, c, r, ht⟩ := tokenOfRun_some_decomp htok
    have hWord : allWord R := (wr_shape s R hR).2
    refine Or.inr ⟨α, t, hRd, hα, ⟨c :: r, ht, by simp, ?_⟩, ?_⟩
    · intro x hx
      exact hWord x (by
        rw [hRd, ht]
        simp only [List.mem_append, List.mem_cons]
        right; right; right
        exact List.mem_cons.mp hx)
    · refine hscan t ?_
      rw [findAll_eq_runs]
      exact List.mem_filterMap.mpr ⟨R, hR, htok⟩

theorem findAll_mem_infix {s t : List Char} (h : t ∈ findAll s) : isSub t s := by
  rw [findAll_eq_runs] at h
  obtain ⟨R, hR, htok⟩ := List.mem_filterMap.mp h
  obtain ⟨α, hRd, _, _⟩ := tokenOfRun_some_decomp htok
  exact ((List.suffix_append α t).isInfix.trans (hRd ▸ wr_infix s R hR))

/-- The guard of `replace_text_in_runs`. -/
def anyKeyIn (data : FieldMap) (t : List Char) : Bool :=
  data.any (fun kv => decide (isSub kv.1 t))

theorem replace_text_in_runs_pos {data : FieldMap} {p : Para}
    (hg : anyKeyIn data (joinRunText p)) (r : Run) (rest : List Run)
    (hp : p = r :: rest) :
    replace_text_in_runs p data =
      { r with text := replaceLoop data (joinRunText p) }
        :: rest.map (fun q => { q with text := [] }) := by
  subst hp
  rw [replace_text_in_runs]
  simp only [anyKeyIn] at hg
  rw [if_pos hg]
  rfl

theorem replace_text_in_runs_nil (data : FieldMap) :
    replace_text_in_runs [] data = [] := by
  rw [replace_text_in_runs]
  split <;> rfl

theorem replace_text_in_runs_neg {data : FieldMap} {p : Para}
    (hg : ¬ anyKeyIn data (joinRunText p)) :
    replace_text_in_runs p data = p := by
  rw [replace_text_in_runs]
  simp only [anyKeyIn] at hg
  rw [if_neg (by simpa using hg)]

theorem paraText_pos {data : FieldMap} {p : Para}
    (hg : anyKeyIn data (joinRunText p)) (r : Run) (rest : List Run)
    (hp : p = r :: rest) :
    paraText (replace_text_in_runs p data) = replaceLoop data (paraText p) := by
  rw [replace_text_in_runs_pos hg r rest hp, paraText, joinRunText]
  simp [paraText]

/-- One paragraph after substitution carries no token, provided the data
is good and every token of the paragraph has a key. -/
theorem para_clean {data : FieldMap} (hgood : GoodData data) {p : Para}
    (hscan : ∀ t ∈ findAll (paraText p), t ∈ data.map Prod.fst) :
    findAll (paraText (replace_text_in_runs p data)) = [] := by
  by_cases hg : anyKeyIn data (joinRunText p)
  · rcases p with _ | ⟨r, rest⟩
    · rw [replace_text_in_runs_nil]
      exact findAll_nil
    · rw [paraText_pos hg r rest rfl]
      refine findAll_eq_nil_of_clean ?_
      exact loop_clean hgood (strInv_init hscan)
  · rw [replace_text_in_runs_neg hg]
    rcases h : findAll (paraText p) with _ | ⟨t, ts⟩
    · rfl
    · have ht : t ∈ findAll (paraText p) := by rw [h]; simp
      have hkey := hscan t ht
      obtain ⟨kv, hkv, hkve⟩ := List.mem_map.mp hkey
      have : anyKeyIn data (joinRunText p) := by
        rw [anyKeyIn, List.any_eq_true]
        exact ⟨kv, hkv, by
          rw [decide_eq_true_iff, hkve]
          exact findAll_mem_infix ht⟩
      exact absurd this hg

theorem docParas_substitutePhase (d : Doc) (data : FieldMap) :
    docParas (substitutePhase d data) =
      (docParas d).map (replace_text_in_runs · data) := by
  rw [docParas, docParas, substitutePhase]
  simp only [List.map_append]
  congr 1
  · congr 1
    · exact elemParas_map _ d.body
    · rw [List.map_flatten]
      congr 1
      rw [List.map_map, List.map_map]
      apply List.map_congr_left
      intro s _
      simp only [Function.comp]
      rw [List.map_append]
      congr 1
      · rcases s.header with _ | e
        · rfl
        · simp [elemParas_map]
      · rcases s.footer with _ | e
        · rfl
        · simp [elemParas_map]
  · rw [List.map_flatten]

theorem docParas_dropTrailingEmpty (d : Doc) :
    List.Sublist (docParas (dropTrailingEmpty d)) (docParas d) := by
  rw [dropTrailingEmpty]
  rcases d with ⟨⟨ps, ts⟩, sect, tb⟩
  dsimp only
  split
  · rw [docParas, docParas]
    dsimp only [elemParas]
    rw [List.append_assoc, List.append_assoc, List.append_assoc, List.append_assoc]
    exact (ps.dropLast_sublist).append_right _
  · exact List.Sublist.refl _

theorem mem_find_placeholders {d : Doc} {t : List Char} :
    t ∈ find_placeholders d ↔ ∃ p ∈ docParas d, t ∈ findAll (paraText p) := by
  rw [find_placeholders, List.mem_dedup, List.mem_flatten]
  constructor
  · rintro ⟨l, hl, htl⟩
    obtain ⟨p, hp, hpe⟩ := List.mem_map.mp hl
    exact ⟨p, hp, by rw [paraText]; rw [find_placeholders_in_runs] at hpe; rw [hpe]; exact htl⟩
  · rintro ⟨p, hp, htp⟩
    exact ⟨find_placeholders_in_runs p, List.mem_map.mpr ⟨p, hp, rfl⟩, htp⟩

theorem find_placeholders_eq_nil {d : Doc}
    (h : ∀ p ∈ docParas d, findAll (paraText p) = []) :
    find_placeholders d = [] := by
  rcases hfp : find_placeholders d with _ | ⟨t, ts⟩
  · rfl
  · have ht : t ∈ find_placeholders d := by rw [hfp]; simp
    obtain ⟨p, hp, htp⟩ := mem_find_placeholders.mp ht
    rw [h p hp] at htp
    cases htp

/-!  ## Claims -/

/-- Template used by the counterexample to claim C1: one body paragraph
reading `v_a`. -/
def c1T : Doc :=
  { body := .mk [[⟨"v_a".toList, 0⟩]] [], sections := [], textboxes := [] }

/-- Field map used by the counterexample to claim C1: the value supplied
for `v_a` is itself placeholder-shaped. -/
def c1F : FieldMap := [("v_a".toList, "v_b".toList)]

/-- Claim C1, as stated, is false: with the field map `{v_a ↦ "v_b"}` —
whose keys are a superset of `scan(T) = {v_a}` — the substituted document
still matches the placeholder pattern: `scan(output) = {v_b}`. -/
theorem claim1_roundtrip_counterexample :
    (∀ t ∈ find_placeholders c1T, t ∈ c1F.map Prod.fst) ∧
    find_placeholders (substituteDoc c1T c1F) ≠ [] := by
  constructor
  · decide
  · decide

/-- Claim C1 (amended): the round trip does hold when additionally every
key of the field map fully matches the placeholder pattern, no key is a
substring of a different key, and every value is a nonempty string with
no characters from `[A-Za-z0-9_]` (see `GoodData`): then substituting a
field map whose keys cover `scan(T)` leaves no placeholder anywhere in
the output document. -/
theorem claim1_roundtrip_amended (T : Doc) (data : FieldMap)
    (hgood : GoodData data)
    (hsup : ∀ t ∈ find_placeholders T, t ∈ data.map Prod.fst) :
    find_placeholders (substituteDoc T data) = [] := by
  refine find_placeholders_eq_nil ?_
  intro q hq
  have hq2 : q ∈ docParas (substitutePhase T data) :=
    (docParas_dropTrailingEmpty _).subset hq
  rw [docParas_substitutePhase] at hq2
  obtain ⟨p, hp, hpe⟩ := List.mem_map.mp hq2
  rw [← hpe]
  exact para_clean hgood (fun t ht => hsup t (mem_find_placeholders.mpr ⟨p, hp, ht⟩))

/-- A document exercising the amended claim C1: the token `v_name` is
split across two differently formatted runs, a second token sits in a
table cell, and a third in a footer. -/
def c1wT : Doc :=
  { body := .mk [[⟨"Issued to v_".toList, 0⟩, ⟨"name".toList, 1⟩]]
      [[[Element.mk [[⟨"PO: v_po".toList, 2⟩]] []]]]
    sections := [⟨none, some (.mk [[⟨"Division: v_division".toList, 3⟩]] [])⟩]
    textboxes := [] }

/-- A good field map for `c1wT`: pattern-shaped keys, non-word values. -/
def c1wF : FieldMap :=
  [("v_name".toList, "(*)".toList),
   ("v_po".toList, "##".toList),
   ("v_division".toList, "--".toList)]

theorem claim1_roundtrip_amended_witness :
    GoodData c1wF ∧ (∀ t ∈ find_placeholders c1wT, t ∈ c1wF.map Prod.fst) ∧
    find_placeholders (substituteDoc c1wT c1wF) = [] := by
  have hgood : GoodData c1wF := by
    constructor
    · intro kv hkv
      have h3 : kv = ("v_name".toList, "(*)".toList) ∨
          kv = ("v_po".toList, "##".toList) ∨
          kv = ("v_division".toList, "--".toList) := by
        simpa [c1wF] using hkv
      rcases h3 with h | h | h <;> subst h
      · exact ⟨⟨"name".toList, rfl, by decide, by decide⟩, by decide, by decide⟩
      · exact ⟨⟨"po".toList, rfl, by decide, by decide⟩, by decide, by decide⟩
      · exact ⟨⟨"division".toList, rfl, by decide, by decide⟩, by decide, by decide⟩
    · intro kv1 h1 kv2 h2 hsub
      have h3 : ∀ kv ∈ c1wF, kv.1 = "v_name".toList ∨
          kv.1 = "v_po".toList ∨ kv.1 = "v_division".toList := by decide
      rcases h3 kv1 h1 with ha | ha | ha <;> rcases h3 kv2 h2 with hb | hb | hb <;>
        rw [ha, hb] <;> rw [ha, hb] at hsub <;> first
        | rfl
        | (exfalso; revert hsub; decide)
  exact ⟨hgood, by decide, claim1_roundtrip_amended c1wT c1wF hgood (by decide)⟩

theorem notKeyOf_iff (data : FieldMap) (p : List Char) :
    notKeyOf data p = true ↔ ∀ kv ∈ data, kv.1 ≠ p := by
  rw [notKeyOf]
  simp

/-- Claim C2 (confirmed): when the field map lacks a value for at least
one scanned token, `replace_placeholders_and_convert` stops with the
`ValueError` before any mutation — no save, no conversion, no output —
and the message enumerates exactly the set of missing tokens (every
scanned token without a key, not just the first). -/
theorem claim2_missing_data_error (T : Doc) (data : FieldMap)
    (dx px : List Char) (o : Oracles) (ho : o.openFail = false)
    (hmiss : ∃ t ∈ find_placeholders T, ∀ kv ∈ data, kv.1 ≠ t) :
    ∃ missing,
      replace_placeholders_and_convert T data dx px o =
        { events := [], err := some (.valueError (missingMsg missing)) } ∧
      ∀ t, t ∈ missing ↔ (t ∈ find_placeholders T ∧ ∀ kv ∈ data, kv.1 ≠ t) := by
  obtain ⟨t0, ht0, ht0k⟩ := hmiss
  refine ⟨(find_placeholders T).filter (notKeyOf data), ?_, ?_⟩
  · rw [replace_placeholders_and_convert, ho]
    rw [if_neg (by simp)]
    rw [if_pos ?_]
    intro hnil
    have : t0 ∈ (find_placeholders T).filter (notKeyOf data) :=
      List.mem_filter.mpr ⟨ht0, (notKeyOf_iff data t0).mpr ht0k⟩
    rw [hnil] at this
    cases this
  · intro t
    rw [List.mem_filter, notKeyOf_iff]

/-- Template for the C2 witness: tokens `v_a` (body) and `v_b` (text box). -/
def c2T : Doc :=
  { body := .mk [[⟨"x v_a y".toList, 0⟩]] [], sections := []
    textboxes := [[[⟨"v_b".toList, 1⟩]]] }

/-- Field map for the C2 witness: only `v_a` is supplied. -/
def c2F : FieldMap := [("v_a".toList, "1".toList)]

theorem claim2_missing_data_error_witness :
    (⟨false, false, false⟩ : Oracles).openFail = false ∧
    (∃ t ∈ find_placeholders c2T, ∀ kv ∈ c2F, kv.1 ≠ t) ∧
    ∃ missing,
      replace_placeholders_and_convert c2T c2F "o.docx".toList "o.pdf".toList
          ⟨false, false, false⟩ =
        { events := [], err := some (.valueError (missingMsg missing)) } ∧
      ∀ t, t ∈ missing ↔ (t ∈ find_placeholders c2T ∧ ∀ kv ∈ c2F, kv.1 ≠ t) :=
  ⟨rfl, by decide,
   claim2_missing_data_error c2T c2F "o.docx".toList "o.pdf".toList
     ⟨false, false, false⟩ rfl (by decide)⟩

/-- Paragraph for the C3 counterexample: a single run reading `abc`. -/
def c3p : Para := [⟨"abc".toList, 0⟩]

/-- Field map for the C3 counterexample: the keys `ab` and `bc` overlap
inside `abc`. -/
def c3F : FieldMap := [("ab".toList, "X".toList), ("bc".toList, "Y".toList)]

/-- Claim C3, as stated, is false: in `abc` both keys `ab` and `bc`
occur, but after the sequential loop the text is `Xc` — the occurrence of
`bc` was consumed by the earlier replacement of `ab` and was never
replaced by its value `Y`. -/
theorem claim3_all_occurrences_counterexample :
    (∃ kv ∈ c3F, isSub kv.1 (paraText c3p)) ∧
    ¬ (∀ kv ∈ c3F, isSub kv.1 (paraText c3p) →
        isSub kv.2 (paraText (replace_text_in_runs c3p c3F))) := by
  constructor
  · decide
  · decide

/-- Claim C3 (amended): when some field-map key occurs in the
concatenated run text, the keys are replaced sequentially in field-map
order — each replacement acting on the result of the previous one, so an
occurrence destroyed by an earlier replacement is not replaced by its own
value — and the final text is written into the first run (which keeps its
formatting) while every other run is blanked. -/
theorem claim3_rewrite_amended (data : FieldMap) (r : Run) (rest : List Run)
    (hg : anyKeyIn data (paraText (r :: rest))) :
    replace_text_in_runs (r :: rest) data =
      { text := (r :: rest |> paraText |> replaceLoop data), fmt := r.fmt }
        :: rest.map (fun q => { text := [], fmt := q.fmt }) ∧
    replaceLoop data (paraText (r :: rest)) =
      data.foldl
        (fun t kv => if isSub kv.1 t then pyReplace t kv.1 kv.2 else t)
        (paraText (r :: rest)) :=
  ⟨replace_text_in_runs_pos hg r rest rfl, rfl⟩

/-- Paragraph for the C3 witness. -/
def c3wp : Para := [⟨"Dear v_name".toList, 4⟩, ⟨", welcome".toList, 7⟩]

/-- Field map for the C3 witness. -/
def c3wF : FieldMap := [("v_name".toList, "Ada".toList)]

theorem claim3_rewrite_amended_witness :
    anyKeyIn c3wF (paraText c3wp) = true ∧
    replace_text_in_runs c3wp c3wF =
      [⟨"Dear Ada, welcome".toList, 4⟩, ⟨[], 7⟩] := by
  refine ⟨by decide, ?_⟩
  have h := claim3_rewrite_amended c3wF ⟨"Dear v_name".toList, 4⟩
    [⟨", welcome".toList, 7⟩] (by decide)
  show replace_text_in_runs
    [⟨"Dear v_name".toList, 4⟩, ⟨", welcome".toList, 7⟩] c3wF = _
  rw [h.1]
  decide

/-- Claim C4 (confirmed): a token split across adjacent runs is still
discovered — the scan joins the run texts before matching — and is still
replaced: the rewritten paragraph text equals a plain `str.replace` of
the joined text, regardless of how the token was distributed over runs. -/
theorem claim4_split_token (rs : Para) (t v : List Char)
    (ht : t ∈ findAll (paraText rs))
    (hsplit : ∀ r ∈ rs, ¬ isSub t r.text)
    (r0 : Run) (rest : List Run) (hrs : rs = r0 :: rest) :
    t ∈ find_placeholders_in_runs rs ∧
    paraText (replace_text_in_runs rs [(t, v)]) = pyReplace (paraText rs) t v := by
  constructor
  · exact ht
  · have hocc : isSub t (joinRunText rs) := findAll_mem_infix ht
    have hg : anyKeyIn [(t, v)] (joinRunText rs) := by
      rw [anyKeyIn]
      simp only [List.any_cons, List.any_nil, Bool.or_false]
      exact decide_eq_true hocc
    rw [paraText_pos hg r0 rest hrs, replaceLoop_cons]
    show replaceLoop []
        (if isSub t (paraText rs) then pyReplace (paraText rs) t v else paraText rs) =
      pyReplace (paraText rs) t v
    have hocc2 : isSub t (paraText rs) := hocc
    rw [if_pos hocc2]
    rfl

/-- Runs for the C4 witness: `v_name` split as `v_` plus `name`. -/
def c4rs : Para := [⟨"v_".toList, 0⟩, ⟨"name".toList, 1⟩]

theorem claim4_split_token_witness :
    "v_name".toList ∈ findAll (paraText c4rs) ∧
    (∀ r ∈ c4rs, ¬ isSub "v_name".toList r.text) ∧
    "v_name".toList ∈ find_placeholders_in_runs c4rs ∧
    paraText (replace_text_in_runs c4rs [("v_name".toList, "John Doe".toList)]) =
      pyReplace (paraText c4rs) "v_name".toList "John Doe".toList :=
  ⟨by decide, by decide,
   claim4_split_token c4rs "v_name".toList "John Doe".toList (by decide) (by decide)
     ⟨"v_".toList, 0⟩ [⟨"name".toList, 1⟩] rfl⟩

/-- Template for the C5 counterexample: body ends in two empty
paragraphs. -/
def c5T : Doc :=
  { body := .mk [[⟨"x".toList, 0⟩], [], []] [], sections := [], textboxes := [] }

/-- Empty field map for the C5 counterexample. -/
def c5F : FieldMap := []

/-- Claim C5, as stated, is false: with two trailing empty paragraphs the
single deletion removes only the final one, so the saved document still
ends with an empty paragraph. -/
theorem claim5_trailing_counterexample :
    bodyParas (substituteDoc c5T c5F) ≠ [] ∧
    stripEmpty ((bodyParas (substituteDoc c5T c5F)).getLast?.getD []) = true := by
  constructor
  · decide
  · decide

/-- Claim C5 (amended): after substitution, exactly one deletion happens,
and it targets only the final body paragraph: when that paragraph is
whitespace-empty the body becomes its `dropLast` (so a second trailing
empty paragraph can survive); otherwise the body — and in every case all
sections and text boxes — are exactly the substituted ones. -/
theorem claim5_trailing_amended (T : Doc) (data : FieldMap) :
    bodyParas (substituteDoc T data) =
      (if bodyParas (substitutePhase T data) ≠ [] ∧
          stripEmpty ((bodyParas (substitutePhase T data)).getLast?.getD [])
       then (bodyParas (substitutePhase T data)).dropLast
       else bodyParas (substitutePhase T data)) ∧
    (substituteDoc T data).sections = (substitutePhase T data).sections ∧
    (substituteDoc T data).textboxes = (substitutePhase T data).textboxes := by
  rw [substituteDoc]
  rcases hs : substitutePhase T data with ⟨⟨ps, ts⟩, sect, tb⟩
  rw [dropTrailingEmpty]
  dsimp only [bodyParas]
  by_cases h : ps ≠ [] ∧ stripEmpty (ps.getLast?.getD []) = true
  · rw [if_pos h, if_pos h]
    exact ⟨rfl, rfl, rfl⟩
  · rw [if_neg h, if_neg h]
    exact ⟨rfl, rfl, rfl⟩

/-- Claim C6 (confirmed): when the external converter fails, the
exception is caught inside `replace_placeholders_and_convert` — nothing
propagates to the caller — the handler prints the error and the
platform remediation hint, and the edited document was already saved
before the conversion attempt and is not rolled back or deleted. -/
theorem claim6_conversion_error_caught (T : Doc) (data : FieldMap)
    (dx px : List Char)
    (hnomiss : (find_placeholders T).filter (notKeyOf data) = []) :
    replace_placeholders_and_convert T data dx px ⟨false, false, true⟩ =
      { events := [.saveAttempt (substituteDoc T data) dx,
                   .saved (substituteDoc T data) dx,
                   .printed ("Saved modified document to ".toList ++ dx),
                   .convertAttempt dx px,
                   .printedErrorDuringConversion .convertError,
                   .printed hintMsg],
        err := none } := by
  rw [replace_placeholders_and_convert]
  rw [if_neg (by simp)]
  rw [if_neg (by simp [hnomiss])]
  rfl

/-- Template for the C6 witness. -/
def c6T : Doc :=
  { body := .mk [[⟨"v_a".toList, 0⟩]] [], sections := [], textboxes := [] }

/-- Field map for the C6 witness. -/
def c6F : FieldMap := [("v_a".toList, "1".toList)]

theorem claim6_conversion_error_caught_witness :
    (find_placeholders c6T).filter (notKeyOf c6F) = [] ∧
    replace_placeholders_and_convert c6T c6F "o.docx".toList "o.pdf".toList
        ⟨false, false, true⟩ =
      { events := [.saveAttempt (substituteDoc c6T c6F) "o.docx".toList,
                   .saved (substituteDoc c6T c6F) "o.docx".toList,
                   .printed ("Saved modified document to ".toList ++ "o.docx".toList),
                   .convertAttempt "o.docx".toList "o.pdf".toList,
                   .printedErrorDuringConversion .convertError,
                   .printed hintMsg],
        err := none } :=
  ⟨by decide,
   claim6_conversion_error_caught c6T c6F "o.docx".toList "o.pdf".toList (by decide)⟩

/-- Template for the C7 counterexample. -/
def c7T : Doc :=
  { body := .mk [[⟨"x".toList, 0⟩]] [], sections := [], textboxes := [] }

/-- Empty field map for the C7 counterexample. -/
def c7F : FieldMap := []

/-- Claim C7, as stated, is false for save failures: the `try` block of
`replace_placeholders_and_convert` wraps `doc.save` together with the
conversion, so a failure while saving the edited document is caught by
the same handler (which prints the conversion-error message and the
hint) and does not propagate to the caller. -/
theorem claim7_propagation_counterexample :
    replace_placeholders_and_convert c7T c7F "o.docx".toList "o.pdf".toList
        ⟨false, true, false⟩ =
      { events := [.saveAttempt c7T "o.docx".toList,
                   .printedErrorDuringConversion .saveError,
                   .printed hintMsg],
        err := none } := rfl

/-- Claim C7 (amended): every error other than the missing-data error,
conversion errors, and save errors propagates unhandled — a failure
opening the template propagates, and an image-file failure in the
voucher renderer propagates after the draws before it — while a save
failure is caught by the conversion handler; and no operation retries:
each save or conversion is attempted at most once. -/
theorem claim7_propagation_amended (T : Doc) (data : FieldMap)
    (dx px : List Char)
    (hnomiss : (find_placeholders T).filter (notKeyOf data) = []) :
    (∀ sf cf, replace_placeholders_and_convert T data dx px ⟨true, sf, cf⟩ =
        { events := [], err := some .openError }) ∧
    (∀ vdata n, lookup vdata "employee_name".toList = some n →
        create_voucher vdata false =
          ([.canvasCreated (voucherFilename n), .setFillColor, .setStrokeColor],
           some (.imageError "resource/cok_logo.png".toList))) ∧
    (replace_placeholders_and_convert T data dx px ⟨false, true, false⟩).err = none ∧
    (∀ o, (replace_placeholders_and_convert T data dx px o).events.countP
        (fun e => match e with | .saveAttempt _ _ => true | _ => false) ≤ 1 ∧
      (replace_placeholders_and_convert T data dx px o).events.countP
        (fun e => match e with | .convertAttempt _ _ => true | _ => false) ≤ 1) := by
  refine ⟨?_, ?_, ?_, ?_⟩
  · intro sf cf
    rw [replace_placeholders_and_convert]
    rfl
  · intro vdata n hl
    rw [create_voucher, voucherScript]
    rw [runVoucher, hl]
    rfl
  · rw [replace_placeholders_and_convert]
    rw [if_neg (by simp)]
    rw [if_neg (by simp [hnomiss])]
    rfl
  · intro o
    rcases o with ⟨of, sf, cf⟩
    rw [replace_placeholders_and_convert]
    rcases of
    · rw [if_neg (by simp)]
      rw [if_neg (by simp [hnomiss])]
      rcases sf
      · rcases cf <;> simp [List.countP_cons, List.countP_nil]
      · simp [List.countP_cons, List.countP_nil]
    · simp [List.countP_nil]

/-- Voucher data for the C7 witness. -/
def c7V : FieldMap := [("employee_name".toList, "Jo Bo".toList)]

theorem claim7_propagation_amended_witness :
    (find_placeholders c7T).filter (notKeyOf c7F) = [] ∧
    lookup c7V "employee_name".toList = some "Jo Bo".toList ∧
    replace_placeholders_and_convert c7T c7F "o.docx".toList "o.pdf".toList
        ⟨true, false, false⟩ = { events := [], err := some .openError } ∧
    create_voucher c7V false =
      ([.canvasCreated (voucherFilename "Jo Bo".toList), .setFillColor, .setStrokeColor],
       some (.imageError "resource/cok_logo.png".toList)) ∧
    (replace_placeholders_and_convert c7T c7F "o.docx".toList "o.pdf".toList
        ⟨false, true, false⟩).err = none := by
  have h := claim7_propagation_amended c7T c7F "o.docx".toList "o.pdf".toList (by decide)
  exact ⟨by decide, by decide, h.1 false false,
    h.2.1 c7V "Jo Bo".toList (by decide), h.2.2.1⟩

/-- Claim C8 (confirmed): with every required voucher key present except
`gl`, `create_voucher` performs every draw up to and including the
cost-centre value — the date, time, division and cost-centre values have
all been drawn — and then fails with the key-lookup error for `gl`; no
validation rejects the map earlier, and nothing after the GL draw runs. -/
theorem claim8_gl_keyerror (data : FieldMap)
    (en po eid mv ed dvi ti dv cc : List Char)
    (h1 : lookup data "employee_name".toList = some en)
    (h2 : lookup data "po_number".toList = some po)
    (h3 : lookup data "employee_id".toList = some eid)
    (h4 : lookup data "maximum_value".toList = some mv)
    (h5 : lookup data "expiry_date".toList = some ed)
    (h6 : lookup data "date_voucher_issued".toList = some dvi)
    (h7 : lookup data "time_issued".toList = some ti)
    (h8 : lookup data "division".toList = some dv)
    (h9 : lookup data "cost_centre".toList = some cc)
    (hgl : lookup data "gl".toList = none) :
    create_voucher data true =
      ([.canvasCreated (voucherFilename en), .setFillColor, .setStrokeColor,
        .drawImage "resource/cok_logo.png".toList,
        .drawImage "resource/img_head.png".toList,
        .rect, .setFont "Helvetica-Bold".toList,
        .drawString "Employee Name:".toList,
        .drawString "PO Number:".toList,
        .drawString "Employee ID:".toList,
        .setFont "Helvetica".toList,
        .drawRightString en, .drawRightString po, .drawRightString eid,
        .rect, .setFont "Helvetica-Bold".toList,
        .drawString "Maximum Value:".toList,
        .drawString "Expiry Date:".toList,
        .setFont "Helvetica".toList,
        .drawRightString mv, .drawRightString ed,
        .drawImage "resource/img_boots.png".toList,
        .paragraphDrawn auth_text,
        .paragraphDrawn auth_text_2,
        .paragraphDrawn note_text,
        .rect, .setFont "Helvetica-Bold".toList,
        .drawString "For Internal Use Only:".toList,
        .line, .line,
        .setFont "Helvetica-Bold".toList,
        .drawString "Date Voucher Issued:".toList,
        .drawString "Time Issued:".toList,
        .drawString "Division:".toList,
        .drawString "Cost Centre:".toList,
        .drawString "GL:".toList,
        .drawString "Issued By:".toList,
        .setFont "Helvetica".toList,
        .drawString dvi, .drawString ti, .drawString dv, .drawString cc],
       some (.keyError "gl".toList)) := by
  rw [create_voucher, voucherScript]
  simp only [runVoucher, h1, h2, h3, h4, h5, h6, h7, h8, h9, hgl, if_pos]

/-- Voucher data for the C8 witness: every required key except `gl`. -/
def c8V : FieldMap :=
  [("employee_name".toList, "John Doe".toList),
   ("po_number".toList, "1234".toList),
   ("employee_id".toList, "55555".toList),
   ("maximum_value".toList, "$200.00".toList),
   ("expiry_date".toList, "May 01, 2026".toList),
   ("date_voucher_issued".toList, "April 01, 2026".toList),
   ("time_issued".toList, "09:00 AM".toList),
   ("division".toList, "Parks".toList),
   ("cost_centre".toList, "100001".toList),
   ("issued_by".toList, "Jane Smith".toList)]

theorem claim8_gl_keyerror_witness :
    lookup c8V "gl".toList = none ∧
    (create_voucher c8V true).2 = some (.keyError "gl".toList) ∧
    .drawString "Parks".toList ∈ (create_voucher c8V true).1 ∧
    .drawString "100001".toList ∈ (create_voucher c8V true).1 := by
  have h := claim8_gl_keyerror c8V
    "John Doe".toList "1234".toList "55555".toList "$200.00".toList
    "May 01, 2026".toList "April 01, 2026".toList "09:00 AM".toList
    "Parks".toList "100001".toList
    (by decide) (by decide) (by decide) (by decide) (by decide)
    (by decide) (by decide) (by decide) (by decide) (by decide)
  rw [h]
  refine ⟨by decide, rfl, ?_, ?_⟩ <;> decide

/-- Claim C9 (confirmed): the rewrite is driven by the field map alone —
a key that occurs in a paragraph's concatenated text is replaced even
when it does not match the placeholder pattern and was never discovered
by the scan, so extra field-map entries rewrite arbitrary matching text. -/
theorem claim9_unrestricted_replacement (rs : Para) (k v : List Char)
    (r0 : Run) (rest : List Run) (hrs : rs = r0 :: rest)
    (hocc : isSub k (paraText rs))
    (hnotscan : k ∉ find_placeholders_in_runs rs) :
    paraText (replace_text_in_runs rs [(k, v)]) = pyReplace (paraText rs) k v := by
  have hg : anyKeyIn [(k, v)] (joinRunText rs) := by
    rw [anyKeyIn]
    simp only [List.any_cons, List.any_nil, Bool.or_false]
    exact decide_eq_true hocc
  rw [paraText_pos hg r0 rest hrs, replaceLoop_cons]
  show replaceLoop []
      (if isSub k (paraText rs) then pyReplace (paraText rs) k v else paraText rs) =
    pyReplace (paraText rs) k v
  have hocc2 : isSub k (paraText rs) := hocc
  rw [if_pos hocc2]
  rfl

/-- Runs for the C9 witness: plain prose, no placeholder anywhere. -/
def c9rs : Para := [⟨"Hello world".toList, 0⟩]

theorem claim9_unrestricted_replacement_witness :
    isSub "world".toList (paraText c9rs) ∧
    "world".toList ∉ find_placeholders_in_runs c9rs ∧
    paraText (replace_text_in_runs c9rs [("world".toList, "there".toList)]) =
      pyReplace (paraText c9rs) "world".toList "there".toList :=
  ⟨by decide, by decide,
   claim9_unrestricted_replacement c9rs "world".toList "there".toList
     ⟨"Hello world".toList, 0⟩ [] rfl (by decide) (by decide)⟩

/-- Template for the C10 counterexample: a paragraph with content and a
trailing empty paragraph. -/
def c10T : Doc :=
  { body := .mk [[⟨"a".toList, 1⟩], [⟨[], 5⟩]] [], sections := [], textboxes := [] }

/-- Field map for the C10 counterexample. -/
def c10F : FieldMap := [("a".toList, "b".toList)]

/-- Claim C10, as stated, is false: the trailing empty paragraph contains
no field-map key, yet `substitute` does not leave it untouched — the
trailing-empty-paragraph deletion removes it from the document. -/
theorem claim10_frame_counterexample :
    [(⟨[], 5⟩ : Run)] ∈ docParas c10T ∧
    (∀ kv ∈ c10F, ¬ isSub kv.1 (paraText [(⟨[], 5⟩ : Run)])) ∧
    [(⟨[], 5⟩ : Run)] ∉ docParas (substituteDoc c10T c10F) := by
  refine ⟨by decide, by decide, by decide⟩

/-- Claim C10 (amended): the rewrite pass maps every paragraph of the
document in place, and a paragraph whose concatenated text contains no
field-map key is returned exactly as it was — every run keeps its text
and its formatting — so run collapsing happens only where a replacement
fires; only the subsequent trailing-empty-paragraph deletion can remove
such an untouched (whitespace-only, final) paragraph. -/
theorem claim10_frame_amended (T : Doc) (data : FieldMap) (p : Para)
    (hp : ∀ kv ∈ data, ¬ isSub kv.1 (paraText p)) :
    docParas (substitutePhase T data) =
      (docParas T).map (replace_text_in_runs · data) ∧
    replace_text_in_runs p data = p := by
  refine ⟨docParas_substitutePhase T data, ?_⟩
  refine replace_text_in_runs_neg ?_
  rw [anyKeyIn]
  intro hany
  rw [List.any_eq_true] at hany
  obtain ⟨kv, hkv, hdec⟩ := hany
  exact hp kv hkv (of_decide_eq_true hdec)

/-- Template for the C10 witness. -/
def c10wT : Doc :=
  { body := .mk [[⟨"keep me".toList, 3⟩], [⟨"v_x".toList, 4⟩]] []
    sections := [], textboxes := [] }

/-- Field map for the C10 witness. -/
def c10wF : FieldMap := [("v_x".toList, "1".toList)]

theorem claim10_frame_amended_witness :
    (∀ kv ∈ c10wF, ¬ isSub kv.1 (paraText [(⟨"keep me".toList, 3⟩ : Run)])) ∧
    docParas (substitutePhase c10wT c10wF) =
      (docParas c10wT).map (replace_text_in_runs · c10wF) ∧
    replace_text_in_runs [(⟨"keep me".toList, 3⟩ : Run)] c10wF =
      [(⟨"keep me".toList, 3⟩ : Run)] := by
  have h := claim10_frame_amended c10wT c10wF [(⟨"keep me".toList, 3⟩ : Run)] (by decide)
  exact ⟨by decide, h.1, h.2⟩
